import Mathlib

/-!
Shallow embedding of `src/src/main.rs` (a CodinGame fall-challenge bot):
the per-turn decision pipeline. Cells are addressed by `(row, col)` pairs of
naturals; the grid is a function from positions to `Location` together with
explicit `width`/`height` bounds, mirroring `Vec<Vec<Location>>`. The i32
fields (`scrap_amount`, `units`, distances, matter) are embedded as `Int`;
the distance field uses the source's `-1` sentinel.
-/

namespace Fall

/-- Board position `(row, col)`, mirroring the `(i, j)` pairs of the source. -/
abbrev Pos := Nat × Nat

/-- `enum Owner` of the source (`Neutral`, `Me`, `Enemy`). -/
inductive Owner where
  | Neutral
  | Me
  | Enemy
deriving DecidableEq, Repr

/-- `struct Location` of the source. -/
structure Location where
  scrap_amount : Int
  owner : Owner
  units : Int
  recycler : Bool
  can_build : Bool
  can_spawn : Bool
  in_range_of_recycler : Bool
deriving DecidableEq, Repr

/-- `struct Game` of the source: the per-turn snapshot. The grid is a total
function on positions; only positions with `row < height` and `col < width`
are ever read by the pipeline, matching the `Vec<Vec<_>>` of the source. -/
structure Game where
  width : Nat
  height : Nat
  grid : Pos → Location
  my_matter : Int
  enemy_matter : Int

/-- `enum Action` of the source. -/
inductive Action where
  | Move (amount : Nat) (fromX fromY toX toY : Nat)
  | Build (x y : Nat)
  | Spawn (amount : Int) (x y : Nat)
  | Wait
  | Message (text : String)
deriving DecidableEq, Repr

/-- In-bounds predicate for a position: the index range of the grid vectors. -/
def inBounds (H W : Nat) (p : Pos) : Prop := p.1 < H ∧ p.2 < W

instance (H W : Nat) (p : Pos) : Decidable (inBounds H W p) := by
  unfold inBounds; infer_instance

/-- `Game::neighbors`: the four 4-neighbors of `(i, j)` in the fixed order
east, south, west, north, computed over `i32` coordinates and filtered to the
grid bounds, then cast back to indices — exactly as the source does with
`as i32` / `as usize`. -/
def neighbors (H W : Nat) (i j : Nat) : List Pos :=
  (([((i : Int), (j : Int) + 1), ((i : Int) + 1, (j : Int)),
     ((i : Int), (j : Int) - 1), ((i : Int) - 1, (j : Int))] : List (Int × Int)).filter
    (fun q => decide (0 ≤ q.1 ∧ q.1 < (H : Int) ∧ 0 ≤ q.2 ∧ q.2 < (W : Int)))).map
    (fun q => (q.1.toNat, q.2.toNat))

/-- Row-major enumeration of all grid positions: the `for i in 0..height
{ for j in 0..width { ... } }` scan of `set_from_input`. -/
def cellsRowMajor (H W : Nat) : List Pos :=
  (List.range H).flatMap (fun i => (List.range W).map (fun j => (i, j)))

/-- The seed predicate of the BFS: `owner != Owner::Me && scrap_amount > 0`
(a contestable, "outside" cell). -/
def isSeed (g : Game) (p : Pos) : Prop :=
  (g.grid p).owner ≠ Owner.Me ∧ 0 < (g.grid p).scrap_amount

instance (g : Game) (p : Pos) : Decidable (isSeed g p) := by
  unfold isSeed; infer_instance

/-- `outside_coords` of `set_from_input`: the seed cells collected in
row-major order. -/
def outside_coords (g : Game) : List Pos :=
  (cellsRowMajor g.height g.width).filter (fun p => decide (isSeed g p))

/-- `my_robots` of `set_from_input`: cells with `owner == Me && units > 0`,
collected in row-major order. -/
def my_robots (g : Game) : List Pos :=
  (cellsRowMajor g.height g.width).filter
    (fun p => decide ((g.grid p).owner = Owner.Me ∧ 0 < (g.grid p).units))

/-- The initial distance field of `set_from_input`: `0` on seed cells,
`-1` everywhere else. -/
def dist0 (g : Game) : Pos → Int :=
  fun p => if inBounds g.height g.width p ∧ isSeed g p then 0 else -1

/-- The BFS `while to_visit.len() > 0` loop of `set_from_input`: pop the
front cell, collect its in-bounds neighbors whose distance is still negative,
assign them `current_dist + 1` and push them at the back. The `fuel`
argument bounds the number of iterations; `grid_dist_to_outside` supplies
enough fuel for the loop to run to completion (see `bfsLoop_congr_fuel`). -/
def bfsLoop (H W : Nat) : Nat → List Pos → (Pos → Int) → (Pos → Int)
  | 0, _, dist => dist
  | _ + 1, [], dist => dist
  | fuel + 1, c :: rest, dist =>
      let newCells := (neighbors H W c.1 c.2).filter (fun q => decide (dist q < 0))
      bfsLoop H W fuel (rest ++ newCells)
        (fun q => if q ∈ newCells then dist c + 1 else dist q)

/-- The complete distance-field computation of `set_from_input`:
initialization on the row-major scan followed by the BFS loop. -/
def grid_dist_to_outside (g : Game) : Pos → Int :=
  bfsLoop g.height g.width (g.height * g.width + (outside_coords g).length)
    (outside_coords g) (dist0 g)

/-- `Iterator::min` over a list, mirroring `.map(...).min()` of the source:
`none` exactly on the empty list. -/
def listMin {α : Type} [LinearOrder α] : List α → Option α
  | [] => none
  | x :: xs =>
      some (match listMin xs with
            | none => x
            | some m => min x m)

/-- The passable-neighbor list of a robot cell: `neighbors` filtered by
`scrap_amount > 0`, in the fixed east, south, west, north order. -/
def passableNbrs (g : Game) (p : Pos) : List Pos :=
  (neighbors g.height g.width p.1 p.2).filter
    (fun q => decide (0 < (g.grid q).scrap_amount))

/-- The per-unit amount given to the destination at 0-based index `idx` when
`n` units are split over `k` destinations:
`n / k + if idx < n % k then 1 else 0`. -/
def alloc (n k idx : Nat) : Nat :=
  n / k + if idx < n % k then 1 else 0

/-- The `for (k, (i2, j2)) in min_dist_destinations.iter().enumerate()` loop:
emit one `Move` per destination carrying `alloc n k idx` units, stopping at
the first zero amount (the source's `break`). -/
def allocLoop (fromX fromY n k : Nat) : List Pos → Nat → List Action
  | [], _ => []
  | d :: rest, idx =>
      if alloc n k idx = 0 then []
      else Action.Move (alloc n k idx) fromX fromY d.2 d.1 ::
        allocLoop fromX fromY n k rest (idx + 1)

/-- The body of the `MOVING ROBOTS` loop of `compute_actions` for one robot
cell: filter passable neighbors, take the minimum distance
(`.min().unwrap()` — `none` models the panic on an empty neighbor list),
keep the minimal-distance destinations, and split the units over them.
The `units as usize` cast is modelled by `Int.toNat`; unit counts are
nonnegative in every snapshot the protocol can deliver. -/
def movesForRobot (g : Game) (dist : Pos → Int) (p : Pos) : Option (List Action) :=
  let n_units := (g.grid p).units.toNat
  let nbrs := passableNbrs g p
  match listMin (nbrs.map dist) with
  | none => none
  | some min_dist =>
      let dests := nbrs.filter (fun q => decide (dist q = min_dist))
      some (allocLoop p.2 p.1 n_units dests.length dests 0)

/-- The `MOVING ROBOTS` loop over all robot cells, in `my_robots` order;
`none` as soon as one robot cell panics. -/
def movesAll (g : Game) (dist : Pos → Int) : List Pos → Option (List Action)
  | [] => some []
  | r :: rs =>
      match movesForRobot g dist r with
      | none => none
      | some a => match movesAll g dist rs with
                  | none => none
                  | some b => some (a ++ b)

/-- The frontier scan of `compute_actions`: cells with `owner == Me` having
at least one neighbor with `owner != Me && scrap_amount > 0`, in row-major
order. -/
def frontier (g : Game) : List Pos :=
  (cellsRowMajor g.height g.width).filter
    (fun p => decide ((g.grid p).owner = Owner.Me) &&
      (neighbors g.height g.width p.1 p.2).any
        (fun q => decide ((g.grid q).owner ≠ Owner.Me ∧ 0 < (g.grid q).scrap_amount)))

/-- The `SPAWNING ROBOTS` loop of `compute_actions`: `my_matter / 10` (i32
truncating division) spawn-of-1 actions, each at the frontier cell drawn by
the random source. `rng t` is the t-th draw of `thread_rng`; the index into
the frontier is `rng t % frontier.length`, ranging over exactly the values
`gen_range(0..frontier.len())` can return. `gen_range` on the empty range
panics, modelled by `none` whenever the budget is positive and the frontier
is empty. -/
def spawnActions (g : Game) (rng : Nat → Nat) : Option (List Action) :=
  let fr := frontier g
  let budget := (g.my_matter.tdiv 10).toNat
  if fr.length = 0 then
    if budget = 0 then some [] else none
  else
    some ((List.range budget).map (fun t =>
      let p := fr.getD (rng t % fr.length) (0, 0)
      Action.Spawn 1 p.2 p.1))

/-- `Game::compute_actions`: the move actions of all robot cells followed by
the spawn actions; `none` if either phase panics. -/
def compute_actions (g : Game) (dist : Pos → Int) (rng : Nat → Nat) :
    Option (List Action) :=
  match movesAll g dist (my_robots g) with
  | none => none
  | some ms =>
      match spawnActions g rng with
      | none => none
      | some ss => some (ms ++ ss)

/-- `impl ToString for Action`: the `format!` arms of the source. -/
def Action.render : Action → String
  | Action.Move amount fromX fromY toX toY =>
      "MOVE " ++ toString amount ++ " " ++ toString fromX ++ " " ++
        toString fromY ++ " " ++ toString toX ++ " " ++ toString toY
  | Action.Build x y => "BUILD " ++ toString x ++ " " ++ toString y
  | Action.Spawn amount x y =>
      "SPAWN " ++ toString amount ++ " " ++ toString x ++ " " ++ toString y
  | Action.Wait => "WAIT"
  | Action.Message text => "MESSAGE " ++ text

/-- `print_actions`: the content of the single output line, the rendered
actions joined by `";"` (the trailing newline of `println!` is the
transport's framing, not part of the line). -/
def print_actions (actions : List Action) : String :=
  String.intercalate ";" (actions.map Action.render)

/-- Modelled from the spec (section 6, per-turn output): the serialization
grammar `MOVE <amount> <fromX> <fromY> <toX> <toY>`, `BUILD <x> <y>`,
`SPAWN <amount> <x> <y>`, `WAIT`, `MESSAGE <text>`, fields separated by
single spaces. Used as the specification side of the serialization
refinement. -/
def renderSpec : Action → String
  | Action.Move amount fromX fromY toX toY =>
      String.intercalate " "
        ["MOVE", toString amount, toString fromX, toString fromY,
         toString toX, toString toY]
  | Action.Build x y => String.intercalate " " ["BUILD", toString x, toString y]
  | Action.Spawn amount x y =>
      String.intercalate " " ["SPAWN", toString amount, toString x, toString y]
  | Action.Wait => "WAIT"
  | Action.Message text => String.intercalate " " ["MESSAGE", text]

/-- Manhattan distance between two positions: the length of a shortest
4-neighbor path in the full (unobstructed) grid graph. -/
def manh (p q : Pos) : Nat := Nat.dist p.1 q.1 + Nat.dist p.2 q.2

/-- The minimum Manhattan distance from `p` to a cell of `S` (`0` when `S`
is empty; only used with `S ≠ []`). -/
def minManh (S : List Pos) (p : Pos) : Nat :=
  (listMin (S.map (manh p))).getD 0

/-- Walks of length `n` between positions of the `H × W` grid, stepping
through in-bounds 4-neighbors (passability is irrelevant: the BFS of the
source expands through every in-bounds neighbor). -/
inductive WalkN (H W : Nat) : Nat → Pos → Pos → Prop where
  | nil (p : Pos) : inBounds H W p → WalkN H W 0 p p
  | cons (p q r : Pos) (n : Nat) : inBounds H W p → q ∈ neighbors H W p.1 p.2 →
      WalkN H W n q r → WalkN H W (n + 1) p r

/-- Walks through passable cells (`scrap_amount > 0` at every node): the
reachability notion of the spec's BFS-correctness sentence. -/
inductive PWalkN (g : Game) : Nat → Pos → Pos → Prop where
  | nil (p : Pos) : inBounds g.height g.width p → 0 < (g.grid p).scrap_amount →
      PWalkN g 0 p p
  | cons (p q r : Pos) (n : Nat) : inBounds g.height g.width p →
      0 < (g.grid p).scrap_amount → q ∈ neighbors g.height g.width p.1 p.2 →
      PWalkN g n q r → PWalkN g (n + 1) p r

/-! ### Basic lemmas about the grid enumeration and the neighbor list -/

theorem mem_cellsRowMajor {H W : Nat} {p : Pos} :
    p ∈ cellsRowMajor H W ↔ p.1 < H ∧ p.2 < W := by
  unfold cellsRowMajor
  constructor
  · intro h
    simp only [List.mem_flatMap, List.mem_map, List.mem_range] at h
    obtain ⟨i, hi, j, hj, rfl⟩ := h
    exact ⟨hi, hj⟩
  · intro ⟨h1, h2⟩
    simp only [List.mem_flatMap, List.mem_map, List.mem_range]
    exact ⟨p.1, h1, p.2, h2, rfl⟩

theorem mem_outside_coords {g : Game} {p : Pos} :
    p ∈ outside_coords g ↔ inBounds g.height g.width p ∧ isSeed g p := by
  unfold outside_coords inBounds
  simp [List.mem_filter, mem_cellsRowMajor]

theorem mem_my_robots {g : Game} {p : Pos} :
    p ∈ my_robots g ↔ inBounds g.height g.width p ∧
      (g.grid p).owner = Owner.Me ∧ 0 < (g.grid p).units := by
  unfold my_robots inBounds
  simp [List.mem_filter, mem_cellsRowMajor, and_assoc]

theorem mem_neighbors {H W : Nat} {i j : Nat} {q : Pos} :
    q ∈ neighbors H W i j ↔
      q.1 < H ∧ q.2 < W ∧
        ((q.1 = i ∧ q.2 = j + 1) ∨ (q.1 = i + 1 ∧ q.2 = j) ∨
         (q.1 = i ∧ q.2 + 1 = j) ∨ (q.1 + 1 = i ∧ q.2 = j)) := by
  unfold neighbors
  simp only [List.mem_map, List.mem_filter, List.mem_cons, List.not_mem_nil, or_false,
    decide_eq_true_eq]
  constructor
  · rintro ⟨⟨a, b⟩, ⟨hmem, hbnd⟩, rfl⟩
    rcases hmem with h | h | h | h <;> rw [Prod.ext_iff] at h <;> dsimp only at * <;> omega
  · rintro ⟨hH, hW, hcase⟩
    rcases hcase with ⟨h1, h2⟩ | ⟨h1, h2⟩ | ⟨h1, h2⟩ | ⟨h1, h2⟩
    · refine ⟨((i : Int), (j : Int) + 1), ⟨Or.inl rfl, ?_⟩, ?_⟩ <;>
        first
        | (dsimp only; omega)
        | (rw [Prod.ext_iff]; dsimp only; constructor <;> omega)
    · refine ⟨((i : Int) + 1, (j : Int)), ⟨Or.inr (Or.inl rfl), ?_⟩, ?_⟩ <;>
        first
        | (dsimp only; omega)
        | (rw [Prod.ext_iff]; dsimp only; constructor <;> omega)
    · refine ⟨((i : Int), (j : Int) - 1), ⟨Or.inr (Or.inr (Or.inl rfl)), ?_⟩, ?_⟩ <;>
        first
        | (dsimp only; omega)
        | (rw [Prod.ext_iff]; dsimp only; constructor <;> omega)
    · refine ⟨((i : Int) - 1, (j : Int)), ⟨Or.inr (Or.inr (Or.inr rfl)), ?_⟩, ?_⟩ <;>
        first
        | (dsimp only; omega)
        | (rw [Prod.ext_iff]; dsimp only; constructor <;> omega)

theorem inBounds_of_mem_neighbors {H W : Nat} {i j : Nat} {q : Pos}
    (h : q ∈ neighbors H W i j) : inBounds H W q := by
  have := mem_neighbors.mp h
  exact ⟨this.1, this.2.1⟩

theorem manh_of_mem_neighbors {H W : Nat} {i j : Nat} {q : Pos}
    (h : q ∈ neighbors H W i j) : manh (i, j) q = 1 := by
  obtain ⟨_, _, hc⟩ := mem_neighbors.mp h
  simp only [manh, Nat.dist]
  omega

theorem neighbors_symm {H W : Nat} {p q : Pos} (h : q ∈ neighbors H W p.1 p.2)
    (hp : inBounds H W p) : p ∈ neighbors H W q.1 q.2 := by
  obtain ⟨hH, hW, hc⟩ := mem_neighbors.mp h
  obtain ⟨h1, h2⟩ := hp
  rw [mem_neighbors]
  omega

theorem neighbors_nodup {H W : Nat} {i j : Nat} : (neighbors H W i j).Nodup := by
  unfold neighbors
  apply List.Nodup.map_on
  · intro x hx y hy hxy
    have hx0 := (List.mem_filter.mp hx).2
    have hy0 := (List.mem_filter.mp hy).2
    simp only [decide_eq_true_eq] at hx0 hy0
    rw [Prod.ext_iff] at hxy ⊢
    dsimp only at hxy
    omega
  · apply List.Nodup.filter
    refine List.Pairwise.cons ?_ (List.Pairwise.cons ?_
      (List.Pairwise.cons ?_ (List.pairwise_singleton _ _))) <;>
      intro z hz <;>
      simp only [List.mem_cons, List.not_mem_nil, or_false, List.mem_singleton] at hz <;>
      rcases hz with rfl | rfl | rfl <;>
      (intro he; rw [Prod.ext_iff] at he; dsimp only at he; omega)

/-! ### Lemmas about `listMin` -/

theorem listMin_eq_none {α : Type} [LinearOrder α] {l : List α} :
    listMin l = none ↔ l = [] := by
  cases l <;> simp [listMin]

theorem listMin_mem {α : Type} [LinearOrder α] : ∀ {l : List α} {m : α},
    listMin l = some m → m ∈ l
  | [], m => by simp [listMin]
  | x :: xs, m => by
    intro h
    simp only [listMin, Option.some.injEq] at h
    cases hxs : listMin xs with
    | none =>
      rw [hxs] at h
      simp only at h
      simp [← h]
    | some m2 =>
      rw [hxs] at h
      simp only at h
      rcases min_choice x m2 with hmin | hmin
      · rw [← h, hmin]; exact List.mem_cons_self x xs
      · rw [← h, hmin]; exact List.mem_cons_of_mem x (listMin_mem hxs)

theorem listMin_le {α : Type} [LinearOrder α] : ∀ {l : List α} {m : α},
    listMin l = some m → ∀ x ∈ l, m ≤ x
  | [], m => by simp [listMin]
  | x :: xs, m => by
    intro h y hy
    simp only [listMin, Option.some.injEq] at h
    cases hxs : listMin xs with
    | none =>
      rw [hxs] at h
      simp only [] at h
      have : xs = [] := listMin_eq_none.mp hxs
      subst this
      simp only [List.mem_singleton] at hy
      simp [← h, hy]
    | some m2 =>
      rw [hxs] at h
      simp only [] at h
      rcases List.mem_cons.mp hy with rfl | hy2
      · rw [← h]; exact min_le_left _ _
      · calc m ≤ m2 := by rw [← h]; exact min_le_right _ _
          _ ≤ y := listMin_le hxs y hy2

theorem listMin_isSome {α : Type} [LinearOrder α] {l : List α} (h : l ≠ []) :
    ∃ m, listMin l = some m := by
  cases l with
  | nil => exact absurd rfl h
  | cons x xs => exact ⟨_, rfl⟩

/-! ### Manhattan distance and its minimum over the seed list -/

theorem manh_comm (p q : Pos) : manh p q = manh q p := by
  simp [manh, Nat.dist]; omega

theorem manh_self (p : Pos) : manh p p = 0 := by
  simp [manh, Nat.dist]

theorem manh_eq_zero {p q : Pos} : manh p q = 0 ↔ p = q := by
  simp only [manh, Nat.dist, Prod.ext_iff]
  omega

theorem manh_triangle (p q r : Pos) : manh p r ≤ manh p q + manh q r := by
  simp only [manh, Nat.dist]
  omega

theorem minManh_le {S : List Pos} {p s : Pos} (hs : s ∈ S) :
    minManh S p ≤ manh p s := by
  unfold minManh
  cases h : listMin (S.map (manh p)) with
  | none =>
    have := listMin_eq_none.mp h
    rw [List.map_eq_nil_iff] at this
    subst this
    simp at hs
  | some m =>
    simpa using listMin_le h (manh p s) (List.mem_map_of_mem _ hs)

theorem minManh_exists {S : List Pos} (hS : S ≠ []) (p : Pos) :
    ∃ s ∈ S, minManh S p = manh p s := by
  have hmap : S.map (manh p) ≠ [] := by
    simpa [List.map_eq_nil_iff] using hS
  obtain ⟨m, hm⟩ := listMin_isSome hmap
  obtain ⟨s, hsS, hsm⟩ := List.mem_map.mp (listMin_mem hm)
  exact ⟨s, hsS, by simp [minManh, hm, hsm]⟩

theorem minManh_zero {S : List Pos} (hS : S ≠ []) {p : Pos} :
    minManh S p = 0 ↔ p ∈ S := by
  constructor
  · intro h
    obtain ⟨s, hsS, hsm⟩ := minManh_exists hS p
    rw [h] at hsm
    rw [manh_eq_zero.mp hsm.symm]
    exact hsS
  · intro h
    have hle : minManh S p ≤ manh p p := minManh_le h
    simpa [manh_self] using hle

theorem minManh_lip {S : List Pos} (hS : S ≠ []) (p q : Pos) :
    minManh S p ≤ minManh S q + manh p q := by
  obtain ⟨s, hsS, hsm⟩ := minManh_exists hS q
  calc minManh S p ≤ manh p s := minManh_le hsS
    _ ≤ manh p q + manh q s := manh_triangle p q s
    _ = minManh S q + manh p q := by rw [hsm]; omega

theorem step_toward {H W : Nat} {p s : Pos} (hp : inBounds H W p)
    (hs : inBounds H W s) (hne : p ≠ s) :
    ∃ q ∈ neighbors H W p.1 p.2, manh q s + 1 = manh p s := by
  obtain ⟨hp1, hp2⟩ := hp
  obtain ⟨hs1, hs2⟩ := hs
  rcases Nat.lt_trichotomy p.1 s.1 with h1 | h1 | h1
  · refine ⟨(p.1 + 1, p.2), ?_, ?_⟩
    · rw [mem_neighbors]; omega
    · simp only [manh, Nat.dist]; omega
  · rcases Nat.lt_trichotomy p.2 s.2 with h2 | h2 | h2
    · refine ⟨(p.1, p.2 + 1), ?_, ?_⟩
      · rw [mem_neighbors]; omega
      · simp only [manh, Nat.dist]; omega
    · exact absurd (Prod.ext h1 h2) hne
    · refine ⟨(p.1, p.2 - 1), ?_, ?_⟩
      · rw [mem_neighbors]; omega
      · simp only [manh, Nat.dist]; omega
  · refine ⟨(p.1 - 1, p.2), ?_, ?_⟩
    · rw [mem_neighbors]; omega
    · simp only [manh, Nat.dist]; omega

theorem minManh_nonneg_int {S : List Pos} (p : Pos) :
    (-1 : Int) ≠ (minManh S p : Int) := by
  have : (0 : Int) ≤ (minManh S p : Int) := Int.natCast_nonneg _
  omega

theorem minManh_pred {H W : Nat} {S : List Pos} {p : Pos} {n : Nat}
    (hSb : ∀ s ∈ S, inBounds H W s) (hS : S ≠ []) (hp : inBounds H W p)
    (h : minManh S p = n + 1) :
    ∃ q ∈ neighbors H W p.1 p.2, minManh S q = n := by
  obtain ⟨s, hsS, hsm⟩ := minManh_exists hS p
  have hne : p ≠ s := by
    intro he
    subst he
    rw [manh_self] at hsm
    omega
  obtain ⟨q, hq, hstep⟩ := step_toward hp (hSb s hsS) hne
  refine ⟨q, hq, ?_⟩
  have h1 : minManh S q ≤ n := by
    have hle : minManh S q ≤ manh q s := minManh_le hsS
    omega
  have hpq : manh p q = 1 := by
    have := manh_of_mem_neighbors hq
    rcases p with ⟨a, b⟩
    simpa using this
  have h2 : minManh S p ≤ minManh S q + 1 := by
    have := minManh_lip hS p q
    omega
  omega

/-! ### The BFS invariant and its preservation -/

/-- The number of grid cells whose distance entry is still negative. -/
def undefCard (H W : Nat) (d : Pos → Int) : Nat :=
  ((Finset.range H ×ˢ Finset.range W).filter (fun p => d p < 0)).card

/-- The invariant carried through the BFS loop: `S` is the seed list, `qu`
the queue, `d` the current field. Queue entries hold their exact minimum
Manhattan distance to `S`; queue distances are sorted and span at most two
consecutive levels; processed cells have all neighbors assigned; unassigned
cells lie strictly beyond the queue front's level. -/
structure BfsInv (H W : Nat) (S : List Pos) (qu : List Pos) (d : Pos → Int) : Prop where
  outb : ∀ p, ¬ inBounds H W p → d p = -1
  sound : ∀ p, inBounds H W p → d p = -1 ∨ d p = (minManh S p : Int)
  qmem : ∀ p ∈ qu, inBounds H W p ∧ d p = (minManh S p : Int)
  sorted : List.Sorted (· ≤ ·) (qu.map (fun p => minManh S p))
  spread : ∀ p ∈ qu, ∀ r ∈ qu, minManh S p ≤ minManh S r + 1
  closed : ∀ p, inBounds H W p → d p ≠ -1 → p ∉ qu →
    ∀ r ∈ neighbors H W p.1 p.2, d r ≠ -1
  front : ∀ c rest, qu = c :: rest → ∀ p, inBounds H W p → d p = -1 →
    minManh S c + 1 ≤ minManh S p
  seeds : ∀ s ∈ S, d s ≠ -1

theorem bfs_step {H W : Nat} {S : List Pos} (hSb : ∀ s ∈ S, inBounds H W s)
    (hS : S ≠ []) {c : Pos} {rest : List Pos} {d : Pos → Int}
    (inv : BfsInv H W S (c :: rest) d) :
    BfsInv H W S
      (rest ++ (neighbors H W c.1 c.2).filter (fun q => decide (d q < 0)))
      (fun q => if q ∈ (neighbors H W c.1 c.2).filter (fun q2 => decide (d q2 < 0))
                then d c + 1 else d q) := by
  set newC := (neighbors H W c.1 c.2).filter (fun q => decide (d q < 0)) with hnewCdef
  have hcq : c ∈ c :: rest := List.mem_cons_self c rest
  obtain ⟨hcin, hcd⟩ := inv.qmem c hcq
  have hnew : ∀ x ∈ newC, x ∈ neighbors H W c.1 c.2 ∧ inBounds H W x ∧ d x = -1 := by
    intro x hx
    have h1 := List.mem_filter.mp hx
    have h2 : d x < 0 := by simpa using h1.2
    have hxin : inBounds H W x := inBounds_of_mem_neighbors h1.1
    rcases inv.sound x hxin with h3 | h3
    · exact ⟨h1.1, hxin, h3⟩
    · rw [h3] at h2
      have := Int.natCast_nonneg (minManh S x)
      omega
  have hnewval : ∀ x ∈ newC, minManh S x = minManh S c + 1 := by
    intro x hx
    obtain ⟨hxn, hxin, hxd⟩ := hnew x hx
    have h1 := minManh_lip hS x c
    have h2 : manh c x = 1 := by
      have := manh_of_mem_neighbors hxn
      simpa using this
    have h3 : manh x c = 1 := by rw [manh_comm]; exact h2
    have hge : minManh S c + 1 ≤ minManh S x := inv.front c rest rfl x hxin hxd
    omega
  have hrest : ∀ r ∈ rest, minManh S c ≤ minManh S r ∧ minManh S r ≤ minManh S c + 1 := by
    intro r hr
    refine ⟨?_, inv.spread r (List.mem_cons_of_mem c hr) c hcq⟩
    exact (List.sorted_cons.mp (by simpa using inv.sorted)).1 (minManh S r)
      (List.mem_map_of_mem _ hr)
  have hrest_not_new : ∀ r ∈ rest, r ∉ newC := by
    intro r hr hrn
    obtain ⟨_, _, hrd⟩ := hnew r hrn
    have h := (inv.qmem r (List.mem_cons_of_mem c hr)).2
    rw [hrd] at h
    exact minManh_nonneg_int _ h
  have hdc1 : d c + 1 = ((minManh S c + 1 : Nat) : Int) := by
    rw [hcd]; push_cast; ring
  have hvals : ∀ x ∈ rest ++ newC,
      minManh S c ≤ minManh S x ∧ minManh S x ≤ minManh S c + 1 := by
    intro x hx
    rcases List.mem_append.mp hx with h | h
    · exact hrest x h
    · rw [hnewval x h]; omega
  constructor
  · -- out-of-bounds cells stay at -1
    intro p hp
    have hpn : p ∉ newC := fun hc => hp (hnew p hc).2.1
    simp only [if_neg hpn]
    exact inv.outb p hp
  · -- every assigned value is exact
    intro p hp
    by_cases hpn : p ∈ newC
    · right
      simp only [if_pos hpn]
      rw [hdc1, hnewval p hpn]
    · rcases inv.sound p hp with h | h
      · left; simpa only [if_neg hpn] using h
      · right; simpa only [if_neg hpn] using h
  · -- queue entries are in bounds with exact values
    intro p hp
    rcases List.mem_append.mp hp with hp1 | hp2
    · have h1 := inv.qmem p (List.mem_cons_of_mem c hp1)
      have hpn := hrest_not_new p hp1
      exact ⟨h1.1, by simpa only [if_neg hpn] using h1.2⟩
    · obtain ⟨hxn, hxin, _⟩ := hnew p hp2
      refine ⟨hxin, ?_⟩
      simp only [if_pos hp2]
      rw [hdc1, hnewval p hp2]
  · -- queue values stay sorted
    show List.Pairwise _ _
    rw [List.map_append, List.pairwise_append]
    refine ⟨(List.sorted_cons.mp (by simpa using inv.sorted)).2, ?_, ?_⟩
    · rw [List.pairwise_map]
      apply List.pairwise_of_forall_mem_list
      intro a ha b hb
      rw [hnewval a ha, hnewval b hb]
    · intro a ha b hb
      obtain ⟨r, hr, rfl⟩ := List.mem_map.mp ha
      obtain ⟨x, hx, rfl⟩ := List.mem_map.mp hb
      rw [hnewval x hx]
      exact (hrest r hr).2
  · -- queue values span at most two levels
    intro p hp r hr
    have h1 := hvals p hp
    have h2 := hvals r hr
    omega
  · -- processed cells have all neighbors assigned
    intro p hp hpd hpq r hr
    by_cases hrn : r ∈ newC
    · simp only [if_pos hrn]
      rw [hdc1]
      intro hcon
      have := Int.natCast_nonneg (minManh S c + 1)
      omega
    · simp only [if_neg hrn]
      have hpn : p ∉ newC := fun hc => hpq (List.mem_append.mpr (Or.inr hc))
      have hpd' : d p ≠ -1 := by
        intro hc
        apply hpd
        simp only [if_neg hpn]
        exact hc
      by_cases hpc : p = c
      · subst hpc
        intro hcon
        apply hrn
        rw [hnewCdef]
        exact List.mem_filter.mpr ⟨hr, by simp [hcon]⟩
      · have hpq' : p ∉ c :: rest := by
          intro hc
          rcases List.mem_cons.mp hc with h | h
          · exact hpc h
          · exact hpq (List.mem_append.mpr (Or.inl h))
        exact inv.closed p hp hpd' hpq' r hr
  · -- unassigned cells lie beyond the new front's level
    intro c2 rest2 hq p hp hpd
    have hpn : p ∉ newC := by
      intro hc
      rw [if_pos hc, hdc1] at hpd
      have := Int.natCast_nonneg (minManh S c + 1)
      omega
    have hdp : d p = -1 := by rwa [if_neg hpn] at hpd
    have hold : minManh S c + 1 ≤ minManh S p := inv.front c rest rfl p hp hdp
    have hpnbr : p ∉ neighbors H W c.1 c.2 := by
      intro hc
      exact hpn (by rw [hnewCdef]; exact List.mem_filter.mpr ⟨hc, by simp [hdp]⟩)
    have hc2mem : c2 ∈ rest ++ newC := by rw [hq]; exact List.mem_cons_self _ _
    have hc2val := hvals c2 hc2mem
    rcases Nat.lt_or_ge (minManh S c2) (minManh S c + 1) with hw | hw
    · omega
    · by_contra hcon
      push_neg at hcon
      have hpval : minManh S p = minManh S c + 1 := by omega
      obtain ⟨r, hrnb, hrval⟩ := minManh_pred hSb hS hp hpval
      have hrin := inBounds_of_mem_neighbors hrnb
      have hrd : d r ≠ -1 := by
        intro hneg
        have := inv.front c rest rfl r hrin hneg
        omega
      by_cases hrq : r ∈ c :: rest
      · rcases List.mem_cons.mp hrq with hrc | hrrest
        · have hsym := neighbors_symm hrnb hp
          rw [hrc] at hsym
          exact hpnbr hsym
        · cases rest with
          | nil => exact absurd hrrest (List.not_mem_nil r)
          | cons r0 rtl =>
            have hinj : r0 :: (rtl ++ newC) = c2 :: rest2 := by simpa using hq
            have hc2r0 : r0 = c2 := by injection hinj
            have hsorted_rest : List.Sorted (· ≤ ·)
                ((r0 :: rtl).map (fun p => minManh S p)) :=
              (List.sorted_cons.mp (by simpa using inv.sorted)).2
            have hr0r : minManh S r0 ≤ minManh S r := by
              rcases List.mem_cons.mp hrrest with h | h
              · rw [h]
              · exact (List.sorted_cons.mp (by simpa using hsorted_rest)).1 _
                  (List.mem_map_of_mem _ h)
            rw [hc2r0] at hr0r
            omega
      · have hsym := neighbors_symm hrnb hp
        exact (inv.closed r hrin hrd hrq p hsym) hdp
  · -- seed cells stay assigned
    intro s hs
    by_cases hsn : s ∈ newC
    · simp only [if_pos hsn]
      rw [hdc1]
      intro hcon
      have := Int.natCast_nonneg (minManh S c + 1)
      omega
    · simp only [if_neg hsn]
      exact inv.seeds s hs

theorem undefCard_step {H W : Nat} {d : Pos → Int} {c : Pos} (hc : 0 ≤ d c) :
    undefCard H W
        (fun q => if q ∈ (neighbors H W c.1 c.2).filter (fun q2 => decide (d q2 < 0))
                  then d c + 1 else d q)
      + ((neighbors H W c.1 c.2).filter (fun q2 => decide (d q2 < 0))).length
      = undefCard H W d := by
  set newC := (neighbors H W c.1 c.2).filter (fun q2 => decide (d q2 < 0)) with hdef
  have hnd : newC.Nodup := List.Nodup.filter _ neighbors_nodup
  have hsub : newC.toFinset ⊆
      (Finset.range H ×ˢ Finset.range W).filter (fun p => d p < 0) := by
    intro x hx
    rw [List.mem_toFinset] at hx
    have h1 := List.mem_filter.mp hx
    have h2 : d x < 0 := by simpa using h1.2
    have hb := inBounds_of_mem_neighbors h1.1
    exact Finset.mem_filter.mpr ⟨Finset.mem_product.mpr
      ⟨Finset.mem_range.mpr hb.1, Finset.mem_range.mpr hb.2⟩, h2⟩
  have hset : (Finset.range H ×ˢ Finset.range W).filter
        (fun p => (if p ∈ newC then d c + 1 else d p) < 0)
      = ((Finset.range H ×ˢ Finset.range W).filter (fun p => d p < 0)) \ newC.toFinset := by
    ext x
    simp only [Finset.mem_filter, Finset.mem_sdiff, List.mem_toFinset]
    constructor
    · rintro ⟨hxF, hxlt⟩
      by_cases hxn : x ∈ newC
      · rw [if_pos hxn] at hxlt; omega
      · rw [if_neg hxn] at hxlt; exact ⟨⟨hxF, hxlt⟩, hxn⟩
    · rintro ⟨⟨hxF, hxlt⟩, hxn⟩
      exact ⟨hxF, by rw [if_neg hxn]; exact hxlt⟩
  have hle := Finset.card_le_card hsub
  rw [List.toFinset_card_of_nodup hnd] at hle
  unfold undefCard
  rw [hset, Finset.card_sdiff hsub, List.toFinset_card_of_nodup hnd]
  omega

theorem bfsLoop_zero (H W : Nat) (qu : List Pos) (d : Pos → Int) :
    bfsLoop H W 0 qu d = d := rfl

theorem bfsLoop_nil (H W fuel : Nat) (d : Pos → Int) :
    bfsLoop H W fuel [] d = d := by
  cases fuel <;> rfl

theorem bfsLoop_cons (H W fuel : Nat) (c : Pos) (rest : List Pos) (d : Pos → Int) :
    bfsLoop H W (fuel + 1) (c :: rest) d =
      bfsLoop H W fuel
        (rest ++ (neighbors H W c.1 c.2).filter (fun q => decide (d q < 0)))
        (fun q => if q ∈ (neighbors H W c.1 c.2).filter (fun q2 => decide (d q2 < 0))
                  then d c + 1 else d q) := rfl

theorem bfs_main {H W : Nat} {S : List Pos} (hSb : ∀ s ∈ S, inBounds H W s)
    (hS : S ≠ []) :
    ∀ (fuel : Nat) (qu : List Pos) (d : Pos → Int), BfsInv H W S qu d →
      undefCard H W d + qu.length ≤ fuel →
      ∀ p, bfsLoop H W fuel qu d p =
        if inBounds H W p then (minManh S p : Int) else -1 := by
  intro fuel
  induction fuel with
  | zero =>
    intro qu d inv hf p
    rw [bfsLoop_zero]
    have hU : undefCard H W d = 0 := by omega
    by_cases hp : inBounds H W p
    · rw [if_pos hp]
      rcases inv.sound p hp with h | h
      · exfalso
        have hpU : p ∈ (Finset.range H ×ˢ Finset.range W).filter (fun q => d q < 0) :=
          Finset.mem_filter.mpr ⟨Finset.mem_product.mpr
            ⟨Finset.mem_range.mpr hp.1, Finset.mem_range.mpr hp.2⟩, by omega⟩
        have hcard := Finset.card_ne_zero_of_mem hpU
        unfold undefCard at hU
        omega
      · exact h
    · rw [if_neg hp]; exact inv.outb p hp
  | succ fuel ih =>
    intro qu d inv hf p
    cases qu with
    | nil =>
      rw [bfsLoop_nil]
      have hall : ∀ n q, inBounds H W q → minManh S q ≤ n → d q ≠ -1 := by
        intro n
        induction n with
        | zero =>
          intro q hq hv
          have hq0 : minManh S q = 0 := Nat.le_zero.mp hv
          exact inv.seeds q ((minManh_zero hS).mp hq0)
        | succ m ihm =>
          intro q hq hv
          rcases Nat.lt_or_ge (minManh S q) (m + 1) with h | h
          · exact ihm q hq (by omega)
          · have hqv : minManh S q = m + 1 := by omega
            obtain ⟨r, hrnb, hrv⟩ := minManh_pred hSb hS hq hqv
            have hrin := inBounds_of_mem_neighbors hrnb
            have hdr : d r ≠ -1 := ihm r hrin (by omega)
            have hsym := neighbors_symm hrnb hq
            exact inv.closed r hrin hdr (List.not_mem_nil r) q hsym
      by_cases hp : inBounds H W p
      · rw [if_pos hp]
        rcases inv.sound p hp with h | h
        · exact absurd h (hall (minManh S p) p hp (le_refl _))
        · exact h
      · rw [if_neg hp]; exact inv.outb p hp
    | cons c rest =>
      rw [bfsLoop_cons]
      have hc0 : (0 : Int) ≤ d c := by
        rw [(inv.qmem c (List.mem_cons_self c rest)).2]
        exact Int.natCast_nonneg _
      have hcount := @undefCard_step H W d c hc0
      refine ih _ _ (bfs_step hSb hS inv) ?_ p
      rw [List.length_append]
      simp only [List.length_cons] at hf
      omega

/-- The closed form of the computed distance field: `-1` out of bounds or
when no seed cell exists, and otherwise the minimum Manhattan distance to
the seed cells of `outside_coords`. -/
theorem grid_dist_closed_form (g : Game) (p : Pos) :
    grid_dist_to_outside g p =
      if outside_coords g ≠ [] ∧ inBounds g.height g.width p
      then (minManh (outside_coords g) p : Int) else -1 := by
  by_cases hS : outside_coords g = []
  · unfold grid_dist_to_outside
    rw [hS, bfsLoop_nil]
    rw [if_neg (by simp)]
    unfold dist0
    rw [if_neg]
    intro h
    have hmem : p ∈ outside_coords g := mem_outside_coords.mpr ⟨h.1, h.2⟩
    rw [hS] at hmem
    exact List.not_mem_nil p hmem
  · have hSb : ∀ s ∈ outside_coords g, inBounds g.height g.width s := by
      intro s hs
      exact (mem_outside_coords.mp hs).1
    have hmem_iff : ∀ q : Pos, q ∈ outside_coords g ↔
        inBounds g.height g.width q ∧ isSeed g q := fun q => mem_outside_coords
    have hinv : BfsInv g.height g.width (outside_coords g) (outside_coords g) (dist0 g) := by
      constructor
      · intro q hq
        unfold dist0
        rw [if_neg]
        intro h
        exact hq h.1
      · intro q hq
        unfold dist0
        by_cases hseed : isSeed g q
        · right
          rw [if_pos ⟨hq, hseed⟩]
          have : q ∈ outside_coords g := mem_outside_coords.mpr ⟨hq, hseed⟩
          rw [(minManh_zero hS).mpr this]
          simp
        · left
          rw [if_neg]
          intro h
          exact hseed h.2
      · intro q hq
        obtain ⟨hqb, hqs⟩ := mem_outside_coords.mp hq
        refine ⟨hqb, ?_⟩
        unfold dist0
        rw [if_pos ⟨hqb, hqs⟩, (minManh_zero hS).mpr hq]
        simp
      · show List.Pairwise _ _
        rw [List.pairwise_map]
        apply List.pairwise_of_forall_mem_list
        intro a ha b hb
        rw [(minManh_zero hS).mpr ha, (minManh_zero hS).mpr hb]
      · intro q hq r hr
        rw [(minManh_zero hS).mpr hq, (minManh_zero hS).mpr hr]
        omega
      · intro q hqb hqd hqnot r hr
        exfalso
        unfold dist0 at hqd
        by_cases hseed : isSeed g q
        · exact hqnot (mem_outside_coords.mpr ⟨hqb, hseed⟩)
        · rw [if_neg (fun h => hseed h.2)] at hqd
          exact hqd rfl
      · intro c rest hq q hqb hqd
        have hcmem : c ∈ outside_coords g := by rw [hq]; exact List.mem_cons_self _ _
        rw [(minManh_zero hS).mpr hcmem]
        have hqnot : q ∉ outside_coords g := by
          intro hmem
          obtain ⟨hb2, hs2⟩ := mem_outside_coords.mp hmem
          unfold dist0 at hqd
          rw [if_pos ⟨hb2, hs2⟩] at hqd
          omega
        have : minManh (outside_coords g) q ≠ 0 := by
          intro h0
          exact hqnot ((minManh_zero hS).mp h0)
        omega
      · intro s hs
        obtain ⟨hb2, hs2⟩ := mem_outside_coords.mp hs
        unfold dist0
        rw [if_pos ⟨hb2, hs2⟩]
        omega
    have hfuel : undefCard g.height g.width (dist0 g) + (outside_coords g).length ≤
        g.height * g.width + (outside_coords g).length := by
      have h1 : undefCard g.height g.width (dist0 g) ≤ g.height * g.width := by
        unfold undefCard
        calc ((Finset.range g.height ×ˢ Finset.range g.width).filter _).card
            ≤ (Finset.range g.height ×ˢ Finset.range g.width).card :=
              Finset.card_filter_le _ _
          _ = g.height * g.width := by
              rw [Finset.card_product, Finset.card_range, Finset.card_range]
      omega
    have := bfs_main hSb hS (g.height * g.width + (outside_coords g).length)
      (outside_coords g) (dist0 g) hinv hfuel p
    unfold grid_dist_to_outside
    rw [this]
    by_cases hp : inBounds g.height g.width p
    · rw [if_pos hp, if_pos ⟨hS, hp⟩]
    · rw [if_neg hp, if_neg (fun h => hp h.2)]

/-! ### Walks and their relation to the Manhattan distance -/

theorem WalkN.manh_le {H W n : Nat} {p r : Pos} (h : WalkN H W n p r) :
    manh p r ≤ n := by
  induction h with
  | nil p hp => simp [manh_self]
  | cons p q r n hp hq hw ih =>
    have h1 := manh_triangle p q r
    have h2 : manh p q = 1 := by
      have := manh_of_mem_neighbors hq
      simpa using this
    omega

theorem WalkN.start_inBounds {H W n : Nat} {p r : Pos} (h : WalkN H W n p r) :
    inBounds H W p := by
  cases h with
  | nil _ hp => exact hp
  | cons _ _ _ _ hp _ _ => exact hp

theorem walkN_exists {H W : Nat} :
    ∀ (n : Nat) (p s : Pos), inBounds H W p → inBounds H W s → manh p s = n →
      WalkN H W n p s := by
  intro n
  induction n with
  | zero =>
    intro p s hp hs h
    have he : p = s := manh_eq_zero.mp h
    subst he
    exact WalkN.nil p hp
  | succ m ih =>
    intro p s hp hs h
    have hne : p ≠ s := by
      intro he
      subst he
      rw [manh_self] at h
      omega
    obtain ⟨q, hq, hstep⟩ := step_toward hp hs hne
    have hqin := inBounds_of_mem_neighbors hq
    exact WalkN.cons p q s m hp hq (ih q s hqin hs (by omega))

theorem PWalkN.start_scrap {g : Game} {n : Nat} {p r : Pos} (h : PWalkN g n p r) :
    0 < (g.grid p).scrap_amount := by
  cases h with
  | nil _ _ hs => exact hs
  | cons _ _ _ _ _ hs _ _ => exact hs

/-! ### Lemmas about the unit-partition loop of the movement planner -/

/-- The amount of units a `Move` action carries (`0` for the other kinds). -/
def moveAmount : Action → Nat
  | Action.Move a _ _ _ _ => a
  | _ => 0

theorem alloc_zero_mono {n k i j : Nat} (h : alloc n k i = 0) (hij : i ≤ j) :
    alloc n k j = 0 := by
  unfold alloc at *
  rcases Nat.lt_or_ge i (n % k) with h1 | h1
  · rw [if_pos h1] at h
    exact absurd h (Nat.succ_ne_zero _)
  · rw [if_neg (Nat.not_lt.mpr h1)] at h
    rw [if_neg (Nat.not_lt.mpr (le_trans h1 hij))]
    exact h

theorem allocLoop_eq (fx fy n k : Nat) :
    ∀ (l : List Pos) (idx : Nat),
      allocLoop fx fy n k l idx =
        ((List.enumFrom idx l).filter (fun e => decide (alloc n k e.1 ≠ 0))).map
          (fun e => Action.Move (alloc n k e.1) fx fy e.2.2 e.2.1) := by
  intro l
  induction l with
  | nil => intro idx; rfl
  | cons d rest ih =>
    intro idx
    show (if alloc n k idx = 0 then [] else _) = _
    by_cases h0 : alloc n k idx = 0
    · rw [if_pos h0]
      have hfil : (List.enumFrom idx (d :: rest)).filter
          (fun e => decide (alloc n k e.1 ≠ 0)) = [] := by
        rw [List.filter_eq_nil_iff]
        intro e he
        have hbound := List.mem_enumFrom he
        simp only [decide_eq_true_eq, Decidable.not_not]
        exact alloc_zero_mono h0 (by omega)
      rw [hfil]
      rfl
    · rw [if_neg h0]
      have hstep : List.enumFrom idx (d :: rest) =
          (idx, d) :: List.enumFrom (idx + 1) rest := rfl
      rw [hstep, List.filter_cons]
      have : decide (alloc n k (idx, d).1 ≠ 0) = true := by
        simpa using h0
      rw [this]
      simp only [if_true, List.map_cons]
      rw [ih (idx + 1)]

theorem allocLoop_sum (fx fy n k : Nat) :
    ∀ (l : List Pos) (idx : Nat),
      ((allocLoop fx fy n k l idx).map moveAmount).sum =
        ((List.range' idx l.length).map (alloc n k)).sum := by
  intro l
  induction l with
  | nil => intro idx; rfl
  | cons d rest ih =>
    intro idx
    show ((if alloc n k idx = 0 then [] else _).map moveAmount).sum = _
    have hrange : List.range' idx (d :: rest).length =
        idx :: List.range' (idx + 1) rest.length := rfl
    rw [hrange]
    by_cases h0 : alloc n k idx = 0
    · rw [if_pos h0]
      have hall : ∀ x ∈ (idx :: List.range' (idx + 1) rest.length).map (alloc n k),
          x = 0 := by
        intro x hx
        obtain ⟨i, hi, rfl⟩ := List.mem_map.mp hx
        rcases List.mem_cons.mp hi with rfl | hi2
        · exact h0
        · have := List.mem_range'_1.mp hi2
          exact alloc_zero_mono h0 (by omega)
      rw [List.sum_eq_zero hall]
      rfl
    · rw [if_neg h0]
      simp only [List.map_cons, List.sum_cons, moveAmount]
      rw [ih (idx + 1)]

theorem sum_indicator_range (r : Nat) :
    ∀ k : Nat, ((List.range k).map (fun i => if i < r then 1 else 0)).sum = min k r := by
  intro k
  induction k with
  | zero => simp
  | succ m ih =>
    rw [List.range_succ, List.map_append, List.sum_append, ih]
    by_cases h : m < r
    · rw [List.map_singleton, if_pos h]
      simp only [List.sum_cons, List.sum_nil]
      omega
    · rw [List.map_singleton, if_neg h]
      simp only [List.sum_cons, List.sum_nil]
      omega

theorem sum_map_add_nat {l : List Nat} {f g2 : Nat → Nat} :
    (l.map (fun i => f i + g2 i)).sum = (l.map f).sum + (l.map g2).sum := by
  induction l with
  | nil => rfl
  | cons x xs ih =>
    simp only [List.map_cons, List.sum_cons, ih]
    omega

theorem sum_range_alloc {n k : Nat} (hk : 0 < k) :
    ((List.range k).map (alloc n k)).sum = n := by
  unfold alloc
  rw [sum_map_add_nat]
  have h1 : ((List.range k).map (fun _ => n / k)).sum = k * (n / k) := by
    rw [List.map_const', List.sum_replicate, List.length_range, smul_eq_mul]
  have h2 := sum_indicator_range (n % k) k
  have h3 : n % k < k := Nat.mod_lt n hk
  rw [h1, h2, min_eq_right (le_of_lt h3)]
  exact Nat.div_add_mod n k

/-! ### Concrete games used as test inputs and counterexamples -/

/-- A cell with the given scrap amount, owner and unit count, all structure
flags cleared. -/
def cellOf (s : Int) (o : Owner) (u : Int) : Location where
  scrap_amount := s
  owner := o
  units := u
  recycler := false
  can_build := false
  can_spawn := false
  in_range_of_recycler := false

/-- The 1×3 scenario grid of the spec: Mine/5 scrap/3 units, Neutral/4,
Enemy/4, with 25 matter. -/
def scenarioGame : Game where
  width := 3
  height := 1
  grid := fun p =>
    if p = (0, 0) then cellOf 5 Owner.Me 3
    else if p = (0, 1) then cellOf 4 Owner.Neutral 0
    else if p = (0, 2) then cellOf 4 Owner.Enemy 0
    else cellOf 0 Owner.Neutral 0
  my_matter := 25
  enemy_matter := 0

/-- A 1×3 grid whose middle cell is impassable: a seed on the left, an
impassable cell in the middle, a passable owned cell on the right. The
right cell is unreachable through passable cells yet the BFS reaches it
through the impassable cell. -/
def tunnelGame : Game where
  width := 3
  height := 1
  grid := fun p =>
    if p = (0, 0) then cellOf 1 Owner.Neutral 0
    else if p = (0, 1) then cellOf 0 Owner.Neutral 0
    else cellOf 1 Owner.Me 0
  my_matter := 0
  enemy_matter := 0

/-- A 1×2 grid entirely owned by me (no seed cell anywhere): the whole
distance field stays at the sentinel, and the single robot's passable
neighbor is unreachable. -/
def allMineGame : Game where
  width := 2
  height := 1
  grid := fun p =>
    if p = (0, 0) then cellOf 1 Owner.Me 1 else cellOf 1 Owner.Me 0
  my_matter := 0
  enemy_matter := 0

/-- A 1×1 grid holding one robot with no neighbors at all: the movement
planner's `.min().unwrap()` has nothing to take the minimum of. -/
def lonelyRobotGame : Game where
  width := 1
  height := 1
  grid := fun _ => cellOf 1 Owner.Me 1
  my_matter := 0
  enemy_matter := 0

/-- A 1×1 grid with no robot, an empty frontier, and 10 matter: the spawn
planner draws from an empty range. -/
def noFrontierGame : Game where
  width := 1
  height := 1
  grid := fun _ => cellOf 1 Owner.Me 0
  my_matter := 10
  enemy_matter := 0

/-- Any passable walk of `tunnelGame` starting at the seed cell `(0,0)` is
stuck there: the only neighbor is the impassable middle cell. -/
theorem tunnel_walk_stuck :
    ∀ (n : Nat) (q r : Pos), PWalkN tunnelGame n q r → q = (0, 0) → r = (0, 0) := by
  intro n q r hw
  induction hw with
  | nil p hb hsc => intro h; exact h
  | cons p q2 r2 m hp hsc hq hw2 ih =>
    intro hpe
    subst hpe
    exfalso
    have hq2 : q2 = (0, 1) := by
      obtain ⟨hH, hW, hc⟩ := mem_neighbors.mp hq
      have e1 : tunnelGame.height = 1 := rfl
      have e2 : tunnelGame.width = 3 := rfl
      rw [e1] at hH
      rw [e2] at hW
      dsimp only at hc
      rw [Prod.ext_iff]
      dsimp only
      omega
    have hsc2 := PWalkN.start_scrap hw2
    rw [hq2] at hsc2
    exact absurd hsc2 (by decide)

/-! ### The claims -/

/-- C1: the claim states the per-turn planning never fails on a well-formed
grid, including grids with zero contestable cells or an empty frontier with
`my_matter ≥ 10`. The reference code violates this: with a robot that has no
passable neighbor, `.min().unwrap()` panics, and with an empty frontier and
positive budget, `gen_range(0..0)` panics. Both panics are modelled by
`none`, produced here on the two 1×1 grids for every random source. -/
theorem c1_planner_panics :
    (∀ rng : Nat → Nat,
      compute_actions lonelyRobotGame (grid_dist_to_outside lonelyRobotGame) rng = none) ∧
    (∀ rng : Nat → Nat,
      compute_actions noFrontierGame (grid_dist_to_outside noFrontierGame) rng = none) := by
  constructor <;> intro rng <;> rfl

/-- C2 counterexample: in `tunnelGame`, cell `(0,2)` is not reachable from
any seed cell by a path through passable cells, yet its distance entry is
`2`, not the sentinel `-1` the claim requires. -/
theorem c2_counterexample :
    grid_dist_to_outside tunnelGame (0, 2) = 2 ∧
    ¬ (∃ n s, isSeed tunnelGame s ∧ PWalkN tunnelGame n s (0, 2)) := by
  refine ⟨by decide, ?_⟩
  rintro ⟨n, s, hs, hw⟩
  have hs0 : s = (0, 0) := by
    by_cases h1 : s = (0, 0)
    · exact h1
    · exfalso
      by_cases h2 : s = (0, 1)
      · subst h2
        exact absurd hs (by decide)
      · have hown : (tunnelGame.grid s).owner = Owner.Me := by
          show (if s = (0, 0) then cellOf 1 Owner.Neutral 0
                else if s = (0, 1) then cellOf 0 Owner.Neutral 0
                else cellOf 1 Owner.Me 0).owner = Owner.Me
          rw [if_neg h1, if_neg h2]
          rfl
        exact hs.1 hown
  subst hs0
  have := tunnel_walk_stuck n (0, 0) (0, 2) hw rfl
  exact absurd this (by decide)

/-- C2 amended: the BFS expands through every in-bounds neighbor without
filtering on passability, so for every in-bounds cell the distance entry is
the length of a shortest walk from a seed cell through arbitrary in-bounds
cells, and the sentinel survives exactly when no seed cell exists. -/
theorem c2_amended_bfs_ignores_passability (g : Game) (p : Pos)
    (hin : inBounds g.height g.width p) :
    (outside_coords g = [] → grid_dist_to_outside g p = -1) ∧
    (outside_coords g ≠ [] → ∃ n : Nat, grid_dist_to_outside g p = (n : Int) ∧
      (∃ s, isSeed g s ∧ WalkN g.height g.width n s p) ∧
      (∀ m, m < n → ∀ s, isSeed g s → ¬ WalkN g.height g.width m s p)) := by
  constructor
  · intro hS
    rw [grid_dist_closed_form, if_neg (fun h => h.1 hS)]
  · intro hS
    refine ⟨minManh (outside_coords g) p, ?_, ?_, ?_⟩
    · rw [grid_dist_closed_form, if_pos ⟨hS, hin⟩]
    · obtain ⟨s, hsS, hsm⟩ := minManh_exists hS p
      obtain ⟨hsb, hseed⟩ := mem_outside_coords.mp hsS
      refine ⟨s, hseed, ?_⟩
      have hms : manh s p = minManh (outside_coords g) p := by
        rw [manh_comm]
        exact hsm.symm
      exact walkN_exists _ s p hsb hin hms
    · intro m hm s hseed hw
      have hsb := hw.start_inBounds
      have hsS : s ∈ outside_coords g := mem_outside_coords.mpr ⟨hsb, hseed⟩
      have h1 : manh s p ≤ m := hw.manh_le
      have h2 : minManh (outside_coords g) p ≤ manh p s := minManh_le hsS
      rw [manh_comm] at h2
      omega

/-- Witness for the C2 amended theorem at the scenario grid's robot cell. -/
theorem c2_amended_witness :
    inBounds scenarioGame.height scenarioGame.width (0, 0) ∧
    ((outside_coords scenarioGame = [] →
        grid_dist_to_outside scenarioGame (0, 0) = -1) ∧
      (outside_coords scenarioGame ≠ [] →
        ∃ n : Nat, grid_dist_to_outside scenarioGame (0, 0) = (n : Int) ∧
          (∃ s, isSeed scenarioGame s ∧
            WalkN scenarioGame.height scenarioGame.width n s (0, 0)) ∧
          (∀ m, m < n → ∀ s, isSeed scenarioGame s →
            ¬ WalkN scenarioGame.height scenarioGame.width m s (0, 0)))) :=
  ⟨by decide, c2_amended_bfs_ignores_passability scenarioGame (0, 0) (by decide)⟩

/-- C3 counterexample: in `allMineGame`, the robot at `(0,0)` has exactly
one passable neighbor, that neighbor carries the sentinel `-1`, and yet the
planner emits a move to it instead of emitting nothing. -/
theorem c3_counterexample :
    passableNbrs allMineGame (0, 0) = [(0, 1)] ∧
    grid_dist_to_outside allMineGame (0, 1) = -1 ∧
    (0, 0) ∈ my_robots allMineGame ∧
    compute_actions allMineGame (grid_dist_to_outside allMineGame) (fun _ => 0) =
      some [Action.Move 1 0 0 1 0] := by
  refine ⟨by decide, by decide, by decide, by decide⟩

/-- C3 amended: the planner takes a plain `i32` minimum in which the
sentinel `-1` is smaller than every finite distance. A mixed neighborhood
(sentinel next to finite) never occurs in a computed field, so an
unreachable neighbor is never preferred over a finite one; but when some
passable neighbor is unreachable, all of them are, and the planner then
emits moves to every passable neighbor instead of emitting nothing. -/
theorem c3_amended_sentinel_min (g : Game) (p : Pos) (_hp : p ∈ my_robots g)
    (q : Pos) (hq : q ∈ passableNbrs g p)
    (hqd : grid_dist_to_outside g q = -1) :
    (∀ r ∈ passableNbrs g p, grid_dist_to_outside g r = -1) ∧
    movesForRobot g (grid_dist_to_outside g) p =
      some (allocLoop p.2 p.1 (g.grid p).units.toNat (passableNbrs g p).length
        (passableNbrs g p) 0) := by
  have hqb : inBounds g.height g.width q :=
    inBounds_of_mem_neighbors (List.mem_filter.mp hq).1
  have hS : outside_coords g = [] := by
    by_contra hS
    have hcf := grid_dist_closed_form g q
    rw [if_pos ⟨hS, hqb⟩] at hcf
    rw [hcf] at hqd
    exact minManh_nonneg_int _ hqd.symm
  have hall : ∀ r ∈ passableNbrs g p, grid_dist_to_outside g r = -1 := by
    intro r hr
    have hcf := grid_dist_closed_form g r
    rw [if_neg (fun hcon => hcon.1 hS)] at hcf
    exact hcf
  refine ⟨hall, ?_⟩
  have hne : passableNbrs g p ≠ [] := by
    intro hnil
    rw [hnil] at hq
    exact List.not_mem_nil q hq
  have hmap : (passableNbrs g p).map (grid_dist_to_outside g) ≠ [] := by
    simpa [List.map_eq_nil_iff] using hne
  obtain ⟨md, hmd⟩ := listMin_isSome hmap
  have hmd1 : md = -1 := by
    obtain ⟨r, hr, hrv⟩ := List.mem_map.mp (listMin_mem hmd)
    rw [← hrv]
    exact hall r hr
  have hfilter : (passableNbrs g p).filter
      (fun q2 => decide (grid_dist_to_outside g q2 = md)) = passableNbrs g p := by
    rw [List.filter_eq_self]
    intro a ha
    simp [hall a ha, hmd1]
  simp only [movesForRobot, hmd]
  rw [hfilter]

/-- Witness for the C3 amended theorem at `allMineGame`. -/
theorem c3_amended_witness :
    (0, 0) ∈ my_robots allMineGame ∧
    (0, 1) ∈ passableNbrs allMineGame (0, 0) ∧
    grid_dist_to_outside allMineGame (0, 1) = -1 ∧
    ((∀ r ∈ passableNbrs allMineGame (0, 0),
        grid_dist_to_outside allMineGame r = -1) ∧
      movesForRobot allMineGame (grid_dist_to_outside allMineGame) (0, 0) =
        some (allocLoop 0 0 (allMineGame.grid (0, 0)).units.toNat
          (passableNbrs allMineGame (0, 0)).length
          (passableNbrs allMineGame (0, 0)) 0)) :=
  ⟨by decide, by decide, by decide,
    c3_amended_sentinel_min allMineGame (0, 0) (by decide) (0, 1) (by decide) (by decide)⟩

/-- C4: for a robot cell with `n > 0` units and a nonempty passable-neighbor
list, the planner keeps the minimal-distance destinations in enumeration
order; the destination at 0-based index `i` is allocated
`n / k + (1 if i < n % k else 0)` units; exactly the destinations with a
nonzero allocation get a move action; and the emitted amounts sum to `n`. -/
theorem c4_unit_partition (g : Game) (dist : Pos → Int) (p : Pos)
    (_hp : p ∈ my_robots g) (hne : passableNbrs g p ≠ []) :
    ∃ md acts, listMin ((passableNbrs g p).map dist) = some md ∧
      movesForRobot g dist p = some acts ∧
      acts = ((List.enumFrom 0
            ((passableNbrs g p).filter (fun q => decide (dist q = md)))).filter
          (fun e => decide (alloc (g.grid p).units.toNat
            ((passableNbrs g p).filter (fun q => decide (dist q = md))).length e.1 ≠ 0))).map
        (fun e => Action.Move (alloc (g.grid p).units.toNat
            ((passableNbrs g p).filter (fun q => decide (dist q = md))).length e.1)
          p.2 p.1 e.2.2 e.2.1) ∧
      (acts.map moveAmount).sum = (g.grid p).units.toNat := by
  have hmap : (passableNbrs g p).map dist ≠ [] := by
    simpa [List.map_eq_nil_iff] using hne
  obtain ⟨md, hmd⟩ := listMin_isSome hmap
  refine ⟨md, allocLoop p.2 p.1 (g.grid p).units.toNat
    ((passableNbrs g p).filter (fun q => decide (dist q = md))).length
    ((passableNbrs g p).filter (fun q => decide (dist q = md))) 0, hmd, ?_, ?_, ?_⟩
  · simp only [movesForRobot, hmd]
  · exact allocLoop_eq p.2 p.1 _ _ _ 0
  · have hdne : (passableNbrs g p).filter (fun q => decide (dist q = md)) ≠ [] := by
      obtain ⟨q0, hq0, hq0d⟩ := List.mem_map.mp (listMin_mem hmd)
      intro hnil
      have hq0f : q0 ∈ (passableNbrs g p).filter (fun q => decide (dist q = md)) :=
        List.mem_filter.mpr ⟨hq0, by simpa using hq0d⟩
      rw [hnil] at hq0f
      exact List.not_mem_nil q0 hq0f
    rw [allocLoop_sum, ← List.range_eq_range']
    exact sum_range_alloc (List.length_pos.mpr hdne)

/-- Witness for C4 at the scenario grid's robot cell. -/
theorem c4_witness :
    (0, 0) ∈ my_robots scenarioGame ∧
    passableNbrs scenarioGame (0, 0) ≠ [] ∧
    (∃ md acts,
      listMin ((passableNbrs scenarioGame (0, 0)).map
        (grid_dist_to_outside scenarioGame)) = some md ∧
      movesForRobot scenarioGame (grid_dist_to_outside scenarioGame) (0, 0) =
        some acts ∧
      acts = ((List.enumFrom 0
            ((passableNbrs scenarioGame (0, 0)).filter
              (fun q => decide (grid_dist_to_outside scenarioGame q = md)))).filter
          (fun e => decide (alloc (scenarioGame.grid (0, 0)).units.toNat
            ((passableNbrs scenarioGame (0, 0)).filter
              (fun q => decide (grid_dist_to_outside scenarioGame q = md))).length
            e.1 ≠ 0))).map
        (fun e => Action.Move (alloc (scenarioGame.grid (0, 0)).units.toNat
            ((passableNbrs scenarioGame (0, 0)).filter
              (fun q => decide (grid_dist_to_outside scenarioGame q = md))).length
            e.1) 0 0 e.2.2 e.2.1) ∧
      (acts.map moveAmount).sum = (scenarioGame.grid (0, 0)).units.toNat) :=
  ⟨by decide, by decide,
    c4_unit_partition scenarioGame (grid_dist_to_outside scenarioGame) (0, 0)
      (by decide) (by decide)⟩

/-- C5: whenever the frontier is nonempty and `my_matter ≥ 0`, the spawn
planner emits exactly `⌊my_matter / 10⌋` actions, each a spawn of amount 1
at some frontier cell, for every random source. -/
theorem c5_spawn_budget (g : Game) (rng : Nat → Nat) (hfr : frontier g ≠ [])
    (hm : 0 ≤ g.my_matter) :
    ∃ l, spawnActions g rng = some l ∧
      l.length = g.my_matter.toNat / 10 ∧
      ∀ a ∈ l, ∃ q ∈ frontier g, a = Action.Spawn 1 q.2 q.1 := by
  have hlen : ¬ (frontier g).length = 0 := by
    simpa [List.length_eq_zero] using hfr
  have hres : spawnActions g rng = some
      ((List.range ((g.my_matter).tdiv 10).toNat).map (fun t =>
        Action.Spawn 1 ((frontier g).getD (rng t % (frontier g).length) (0, 0)).2
          ((frontier g).getD (rng t % (frontier g).length) (0, 0)).1)) := by
    simp only [spawnActions]
    rw [if_neg hlen]
  refine ⟨_, hres, ?_, ?_⟩
  · rw [List.length_map, List.length_range]
    obtain ⟨m, hm2⟩ := Int.eq_ofNat_of_zero_le hm
    rw [hm2]
    rfl
  · intro a ha
    obtain ⟨t, _, rfl⟩ := List.mem_map.mp ha
    have hpos : 0 < (frontier g).length := Nat.pos_of_ne_zero hlen
    have hidx : rng t % (frontier g).length < (frontier g).length :=
      Nat.mod_lt _ hpos
    refine ⟨(frontier g).getD (rng t % (frontier g).length) (0, 0), ?_, rfl⟩
    rw [List.getD_eq_getElem _ _ hidx]
    exact List.getElem_mem hidx

/-- Witness for C5 at the scenario grid. -/
theorem c5_witness :
    frontier scenarioGame ≠ [] ∧ 0 ≤ scenarioGame.my_matter ∧
    ∃ l, spawnActions scenarioGame (fun _ => 0) = some l ∧
      l.length = scenarioGame.my_matter.toNat / 10 ∧
      ∀ a ∈ l, ∃ q ∈ frontier scenarioGame, a = Action.Spawn 1 q.2 q.1 :=
  ⟨by decide, by decide,
    c5_spawn_budget scenarioGame (fun _ => 0) (by decide) (by decide)⟩

/-- C6: on the spec's 1×3 scenario grid the distance field is `1, 0, 0`,
the movement planner moves all 3 units from `(x=0,y=0)` to `(x=1,y=0)`, and
the spawn planner emits exactly two spawn-of-1 actions at `(x=0,y=0)`, for
every random source. -/
theorem c6_scenario (rng : Nat → Nat) :
    grid_dist_to_outside scenarioGame (0, 0) = 1 ∧
    grid_dist_to_outside scenarioGame (0, 1) = 0 ∧
    grid_dist_to_outside scenarioGame (0, 2) = 0 ∧
    compute_actions scenarioGame (grid_dist_to_outside scenarioGame) rng =
      some [Action.Move 3 0 0 1 0, Action.Spawn 1 0 0, Action.Spawn 1 0 0] := by
  refine ⟨by decide, by decide, by decide, ?_⟩
  have hmv : movesAll scenarioGame (grid_dist_to_outside scenarioGame)
      (my_robots scenarioGame) = some [Action.Move 3 0 0 1 0] := by decide
  have hsp : spawnActions scenarioGame rng =
      some [Action.Spawn 1 0 0, Action.Spawn 1 0 0] := by
    unfold spawnActions
    have hfr : frontier scenarioGame = [(0, 0)] := by decide
    rw [hfr]
    have hb : ((scenarioGame.my_matter).tdiv 10).toNat = 2 := by decide
    rw [hb]
    simp [List.range_succ, Nat.mod_one]
  simp [compute_actions, hmv, hsp]

/-- C7: in the computed distance field, any two 4-adjacent cells that both
carry a non-sentinel distance have distances differing by at most 1. -/
theorem c7_adjacent_lipschitz (g : Game) (p q : Pos) (hadj : manh p q = 1)
    (hp : grid_dist_to_outside g p ≠ -1)
    (hq : grid_dist_to_outside g q ≠ -1) :
    |grid_dist_to_outside g p - grid_dist_to_outside g q| ≤ 1 := by
  have hcp := grid_dist_closed_form g p
  have hcq := grid_dist_closed_form g q
  by_cases h1 : outside_coords g ≠ [] ∧ inBounds g.height g.width p
  case neg => rw [if_neg h1] at hcp; exact absurd hcp hp
  by_cases h2 : outside_coords g ≠ [] ∧ inBounds g.height g.width q
  case neg => rw [if_neg h2] at hcq; exact absurd hcq hq
  rw [if_pos h1] at hcp
  rw [if_pos h2] at hcq
  rw [hcp, hcq]
  have hadj2 : manh q p = 1 := by rw [manh_comm]; exact hadj
  have ha := minManh_lip h1.1 p q
  have hb := minManh_lip h1.1 q p
  rw [hadj] at ha
  rw [hadj2] at hb
  rw [abs_sub_le_iff]
  omega

/-- Witness for C7 at two adjacent cells of the scenario grid. -/
theorem c7_witness :
    manh (0, 0) (0, 1) = 1 ∧
    grid_dist_to_outside scenarioGame (0, 0) ≠ -1 ∧
    grid_dist_to_outside scenarioGame (0, 1) ≠ -1 ∧
    |grid_dist_to_outside scenarioGame (0, 0) -
      grid_dist_to_outside scenarioGame (0, 1)| ≤ 1 :=
  ⟨by decide, by decide, by decide,
    c7_adjacent_lipschitz scenarioGame (0, 0) (0, 1) (by decide) (by decide) (by decide)⟩

/-- C8: after the distance field is built, an in-bounds cell has distance 0
exactly when it is a seed cell (`owner ≠ Mine ∧ scrap_amount > 0`), and
every non-seed cell carries the sentinel or a distance of at least 1. -/
theorem c8_seed_iff_zero (g : Game) (p : Pos)
    (hin : inBounds g.height g.width p) :
    (grid_dist_to_outside g p = 0 ↔ isSeed g p) ∧
    (¬ isSeed g p →
      grid_dist_to_outside g p = -1 ∨ 1 ≤ grid_dist_to_outside g p) := by
  have hc := grid_dist_closed_form g p
  by_cases hS : outside_coords g = []
  · rw [if_neg (fun h => h.1 hS)] at hc
    constructor
    · rw [hc]
      constructor
      · intro h
        exact absurd h (by decide)
      · intro hseed
        exfalso
        have hmem : p ∈ outside_coords g := mem_outside_coords.mpr ⟨hin, hseed⟩
        rw [hS] at hmem
        exact List.not_mem_nil p hmem
    · intro _
      left
      exact hc
  · rw [if_pos ⟨hS, hin⟩] at hc
    constructor
    · rw [hc]
      constructor
      · intro h
        have h0 : minManh (outside_coords g) p = 0 := by exact_mod_cast h
        exact (mem_outside_coords.mp ((minManh_zero hS).mp h0)).2
      · intro hseed
        have hmem : p ∈ outside_coords g := mem_outside_coords.mpr ⟨hin, hseed⟩
        rw [(minManh_zero hS).mpr hmem]
        simp
    · intro hseed
      right
      rw [hc]
      have hnz : minManh (outside_coords g) p ≠ 0 := by
        intro h0
        exact hseed (mem_outside_coords.mp ((minManh_zero hS).mp h0)).2
      omega

/-- Witness for C8 at the scenario grid's neutral cell. -/
theorem c8_witness :
    inBounds scenarioGame.height scenarioGame.width (0, 1) ∧
    ((grid_dist_to_outside scenarioGame (0, 1) = 0 ↔ isSeed scenarioGame (0, 1)) ∧
      (¬ isSeed scenarioGame (0, 1) →
        grid_dist_to_outside scenarioGame (0, 1) = -1 ∨
          1 ≤ grid_dist_to_outside scenarioGame (0, 1))) :=
  ⟨by decide, c8_seed_iff_zero scenarioGame (0, 1) (by decide)⟩

theorem mem_allocLoop {fx fy n k : Nat} :
    ∀ {l : List Pos} {idx : Nat} {a : Action}, a ∈ allocLoop fx fy n k l idx →
      ∃ amt d, d ∈ l ∧ a = Action.Move amt fx fy d.2 d.1
  | [], idx, a => by simp [allocLoop]
  | d :: rest, idx, a => by
    intro ha
    rw [show allocLoop fx fy n k (d :: rest) idx =
        (if alloc n k idx = 0 then []
         else Action.Move (alloc n k idx) fx fy d.2 d.1 ::
           allocLoop fx fy n k rest (idx + 1)) from rfl] at ha
    by_cases h0 : alloc n k idx = 0
    · rw [if_pos h0] at ha
      exact absurd ha (List.not_mem_nil a)
    · rw [if_neg h0] at ha
      rcases List.mem_cons.mp ha with rfl | ha2
      · exact ⟨alloc n k idx, d, List.mem_cons_self d rest, rfl⟩
      · obtain ⟨amt, d2, hd2, rfl⟩ := mem_allocLoop ha2
        exact ⟨amt, d2, List.mem_cons_of_mem d hd2, rfl⟩

/-- C9: serialization produces the actions joined by `";"`, each rendered
by the spec's grammar: `MOVE <amount> <fromX> <fromY> <toX> <toY>`,
`BUILD <x> <y>`, `SPAWN <amount> <x> <y>`, `WAIT`, `MESSAGE <text>`; and
in the planner-built actions the `x` slot holds the column index and the
`y` slot the row index of the `(row, col)` board coordinate. -/
theorem c9_serialization :
    (∀ actions : List Action,
      print_actions actions = String.intercalate ";" (actions.map renderSpec)) ∧
    (∀ (g : Game) (rng : Nat → Nat) (l : List Action),
      spawnActions g rng = some l → ∀ a ∈ l,
        ∃ i j, (i, j) ∈ frontier g ∧ a = Action.Spawn 1 j i) ∧
    (∀ (g : Game) (dist : Pos → Int) (i j : Nat) (acts : List Action),
      movesForRobot g dist (i, j) = some acts → ∀ a ∈ acts,
        ∃ amt i2 j2, (i2, j2) ∈ passableNbrs g (i, j) ∧
          a = Action.Move amt j i j2 i2) := by
  refine ⟨?_, ?_, ?_⟩
  · intro actions
    unfold print_actions
    have hall : ∀ a : Action, Action.render a = renderSpec a := by
      intro a
      cases a <;> rfl
    rw [show Action.render = renderSpec from funext hall]
  · intro g rng l hl a ha
    simp only [spawnActions] at hl
    by_cases hlen : (frontier g).length = 0
    · rw [if_pos hlen] at hl
      by_cases hb : ((g.my_matter).tdiv 10).toNat = 0
      · rw [if_pos hb] at hl
        obtain rfl : ([] : List Action) = l := (Option.some.injEq _ _).mp hl
        exact absurd ha (List.not_mem_nil a)
      · rw [if_neg hb] at hl
        exact absurd hl (by simp)
    · rw [if_neg hlen] at hl
      rw [← (Option.some.injEq _ _).mp hl] at ha
      obtain ⟨t, _, rfl⟩ := List.mem_map.mp ha
      have hpos : 0 < (frontier g).length := Nat.pos_of_ne_zero hlen
      have hidx : rng t % (frontier g).length < (frontier g).length :=
        Nat.mod_lt _ hpos
      refine ⟨((frontier g).getD (rng t % (frontier g).length) (0, 0)).1,
        ((frontier g).getD (rng t % (frontier g).length) (0, 0)).2, ?_, rfl⟩
      rw [List.getD_eq_getElem _ _ hidx]
      exact List.getElem_mem hidx
  · intro g dist i j acts hacts a ha
    simp only [movesForRobot] at hacts
    cases hmd : listMin ((passableNbrs g (i, j)).map dist) with
    | none =>
      rw [hmd] at hacts
      exact absurd hacts (by simp)
    | some md =>
      rw [hmd] at hacts
      simp only [Option.some.injEq] at hacts
      rw [← hacts] at ha
      obtain ⟨amt, d, hd, rfl⟩ := mem_allocLoop ha
      exact ⟨amt, d.1, d.2, (List.mem_filter.mp hd).1, rfl⟩

/-- Witness for C9: the serialization equality at a concrete action list
and the coordinate convention at the scenario grid's spawn output. -/
theorem c9_witness :
    print_actions [Action.Move 3 0 0 1 0, Action.Wait] =
      String.intercalate ";" ([Action.Move 3 0 0 1 0, Action.Wait].map renderSpec) ∧
    (∀ a ∈ [Action.Spawn 1 0 0, Action.Spawn 1 0 0],
      ∃ i j, (i, j) ∈ frontier scenarioGame ∧ a = Action.Spawn 1 j i) :=
  ⟨c9_serialization.1 _,
    c9_serialization.2.1 scenarioGame (fun _ => 0)
      [Action.Spawn 1 0 0, Action.Spawn 1 0 0] (by decide)⟩

/-- C10: because the BFS expands through every in-bounds neighbor without
filtering on passability, a nonempty seed set gives every in-bounds cell —
impassable ones included — a finite nonnegative distance, and the sentinel
survives exactly when the seed set is empty, in which case every entry is
the sentinel. -/
theorem c10_bfs_reaches_all (g : Game) :
    (outside_coords g ≠ [] → ∀ p, inBounds g.height g.width p →
      0 ≤ grid_dist_to_outside g p) ∧
    (outside_coords g = [] → ∀ p, grid_dist_to_outside g p = -1) := by
  constructor
  · intro hS p hp
    rw [grid_dist_closed_form, if_pos ⟨hS, hp⟩]
    exact Int.natCast_nonneg _
  · intro hS p
    rw [grid_dist_closed_form, if_neg (fun h => h.1 hS)]

/-- Witness for C10: the impassable-free scenario grid gets finite entries;
the seedless grid stays at the sentinel. -/
theorem c10_witness :
    0 ≤ grid_dist_to_outside scenarioGame (0, 0) ∧
    grid_dist_to_outside allMineGame (0, 0) = -1 :=
  ⟨(c10_bfs_reaches_all scenarioGame).1 (by decide) (0, 0) (by decide),
    (c10_bfs_reaches_all allMineGame).2 (by decide) (0, 0)⟩

end Fall
